import Mathlib

/-!
Verification of the GraphQL organization-permission query module
(`src/query.ts` of gh-graphql-query-nodejs): the recursive dual-cursor
pagination engine, the collaborator-edge projection, the deduplicator and
the sorter, embedded shallowly in Lean.

Modelling conventions:
* TypeScript `null`/`undefined` fields become `Option`; the GraphQL `Maybe`
  wrappers of the octokit schema are kept where the source tests them.
* `async` calls are pure function application; the query executor
  (`client.query`) is a function returning `Except`, an `error` value
  standing for a thrown exception (network, auth, GraphQL error list, or a
  malformed payload whose field access throws inside the `try` block).
* The recursion of `retrieveQueryResults` is indexed by explicit fuel; the
  value `none` marks fuel exhaustion (an artifact of the embedding, never
  of the source, which has no depth limit).  Besides the summaries the
  embedded engine also returns the list of variable sets of every executor
  call it issued, in call order, so call counts and cursors can be stated.
-/

/-- The `source` object of a permission source: the GraphQL inline fragments
select `login` for Organization, `nameWithOwner` for Repository and `name`
for Team, so each returned object carries exactly the one field of its
variant. -/
inductive SourceEntity where
  | organization (login : String)
  | repository (nameWithOwner : String)
  | team (name : String)
deriving DecidableEq, Repr

/-- Field access `(source as Organization).login`: defined only on the
Organization variant, `undefined` (`none`) otherwise. -/
def entityLogin : SourceEntity → Option String
  | .organization login => some login
  | _ => none

/-- Field access `(source as Repository).nameWithOwner`. -/
def entityNameWithOwner : SourceEntity → Option String
  | .repository nameWithOwner => some nameWithOwner
  | _ => none

/-- Field access `(source as Team).name`. -/
def entityName : SourceEntity → Option String
  | .team name => some name
  | _ => none

/-- Type guard `isOrganization`: probes `login !== undefined`. -/
def isOrganization (source : SourceEntity) : Bool :=
  (entityLogin source).isSome

/-- Type guard `isRepository`: probes `nameWithOwner !== undefined`. -/
def isRepository (source : SourceEntity) : Bool :=
  (entityNameWithOwner source).isSome

/-- Type guard `isTeam`: probes `name !== undefined`. -/
def isTeam (source : SourceEntity) : Bool :=
  (entityName source).isSome

/-- An element of a collaborator edge's `permissionSources` array. -/
structure PermissionSource where
  permission : String
  source : SourceEntity
deriving DecidableEq, Repr

/-- A `TeamPermission` of the output data model. -/
structure TeamPermission where
  name : String
  permission : String
deriving DecidableEq, Repr

/-- The `UserPermissionSummary` output record. -/
structure UserPermissionSummary where
  repository : String
  handle : String
  permission : String
  organizationPermission : Option String
  teamPermission : Option (List TeamPermission)
  repositoryPermission : Option String
deriving DecidableEq, Repr

/-- GraphQL `PageInfo` of a connection. -/
structure PageInfo where
  hasNextPage : Bool
  endCursor : Option String
deriving DecidableEq, Repr

/-- A `RepositoryCollaboratorEdge`: `permission`, the `permissionSources`
array (nullable) and `node.login`. -/
structure CollaboratorEdge where
  permission : String
  permissionSources : Option (List PermissionSource)
  login : String
deriving DecidableEq, Repr

/-- The `collaborators` connection of a repository node. -/
structure CollaboratorConnection where
  edges : Option (List (Option CollaboratorEdge))
  pageInfo : PageInfo
deriving DecidableEq, Repr

/-- A repository node of the `repositories` connection (only the fields the
module reads). -/
structure RepoNode where
  nameWithOwner : Option String
  collaborators : Option CollaboratorConnection
deriving DecidableEq, Repr

/-- The `repositories` connection of the organization. -/
structure RepositoriesConnection where
  nodes : Option (List (Option RepoNode))
  pageInfo : PageInfo
deriving DecidableEq, Repr

/-- The organization object of the response. -/
structure OrganizationModel where
  repositories : RepositoriesConnection
deriving DecidableEq, Repr

/-- The typed payload `{ organization: Organization }` produced by
`client.query` (the `rateLimit` block is observed but unused by the core). -/
structure QueryPayload where
  organization : OrganizationModel
deriving DecidableEq, Repr

/-- The `UserPermissionQueryVariables` record. -/
structure UserPermissionQueryVariables where
  orgname : String
  endCursor : Option String
  innerCursor : Option String
deriving DecidableEq, Repr

/-- The query executor capability: one parameterized query execution, which
either returns the typed payload or fails (`error` models a thrown
exception). -/
def QueryExecutor : Type :=
  UserPermissionQueryVariables → Except String QueryPayload

/-- JavaScript truthiness of a nullable cursor string: `null`/`undefined`
and the empty string are falsy.  `processAdditionalPages` tests
`pageInfo.endCursor` with this semantics. -/
def jsTruthy : Option String → Bool
  | none => false
  | some s => decide (s ≠ "")

/-- `createUserSummary`: builds a `UserPermissionSummary` from a repository
node and a collaborator edge.  `repository?.nameWithOwner ?? "unknown"`
defaults an absent repository name; the `find`/`filter` chains over
`permissionSources` use the field-presence type guards; the `as Team` cast
reads the `name` field, present on every source that passed `isTeam` (the
`getD ""` default is never exercised after the filter). -/
def createUserSummary (repository : RepoNode) (user : CollaboratorEdge) :
    UserPermissionSummary :=
  { repository := repository.nameWithOwner.getD "unknown"
    handle := user.login
    permission := user.permission
    organizationPermission :=
      ((user.permissionSources.getD []).find? fun src => isOrganization src.source).map
        (fun src => src.permission)
    repositoryPermission :=
      ((user.permissionSources.getD []).find? fun src => isRepository src.source).map
        (fun src => src.permission)
    teamPermission :=
      user.permissionSources.map fun sources =>
        ((sources.filter fun src => isTeam src.source).map fun src =>
          { permission := src.permission
            name := (entityName src.source).getD "" }) }

/-- `processCollaborators`: projects the non-null collaborator edges of one
repository node into summaries (`edges?.filter(e => e !== null) ?? []`,
then one `createUserSummary` per edge; the loop's `if (user)` re-check is
subsumed by the null filter). -/
def processCollaborators (repo : RepoNode) (collaborators : CollaboratorConnection) :
    List UserPermissionSummary :=
  ((collaborators.edges.getD []).filterMap id).map fun user =>
    createUserSummary repo user

/-- The outcome of one (sub)run of the engine: the accumulated summaries
and the variable sets of the executor calls issued, in call order. -/
abbrev QueryOutcome :=
  List UserPermissionSummary × List UserPermissionQueryVariables

/-- The body of `processAdditionalPages`, abstracted over the recursive
re-entry into `retrieveQueryResults` (`recur`): recurse exactly when
pagination is enabled, the connection reports a next page, and the cursor
is truthy; otherwise contribute nothing. -/
def processAdditionalPagesAux (recur : UserPermissionQueryVariables → Option QueryOutcome)
    (paginate : Bool) (pageInfo : PageInfo) (context : UserPermissionQueryVariables) :
    Option QueryOutcome :=
  if paginate && pageInfo.hasNextPage && jsTruthy pageInfo.endCursor then
    recur context
  else
    some ([], [])

/-- The `for (const repo of repositories...)` loop body of
`retrieveQueryResults`, abstracted over the recursive re-entry: for each
repository node with a non-null collaborator connection, append its
projected summaries and then the inner-pagination contribution obtained
from `Object.assign({}, vars, { innerCursor: ...endCursor })`. -/
def processRepositoryNodes (recur : UserPermissionQueryVariables → Option QueryOutcome)
    (paginate : Bool) (vars : UserPermissionQueryVariables) :
    List RepoNode → Option QueryOutcome
  | [] => some ([], [])
  | repo :: rest =>
    match repo.collaborators with
    | none => processRepositoryNodes recur paginate vars rest
    | some collaborators =>
      (processAdditionalPagesAux recur paginate collaborators.pageInfo
          { vars with innerCursor := collaborators.pageInfo.endCursor }).bind
        fun (innerResults, innerCalls) =>
          (processRepositoryNodes recur paginate vars rest).map
            fun (restResults, restCalls) =>
              (processCollaborators repo collaborators ++ innerResults ++ restResults,
               innerCalls ++ restCalls)

/-- `retrieveQueryResults`: executes the query at the current variable set
and walks both cursor axes.  On success it projects every non-null
repository node (`nodes?.filter(...) ?? []`), follows inner pagination per
repository, then follows outer pagination with
`Object.assign({}, vars, { endCursor: ..., innerCursor: null })`.  A
thrown query execution (`catch`) logs and returns the empty list for this
subtree.  `fuel` bounds the recursion depth of the embedding only. -/
def retrieveQueryResults (client : QueryExecutor) (paginate : Bool) :
    Nat → UserPermissionQueryVariables → Option QueryOutcome
  | 0, _ => none
  | fuel + 1, vars =>
    match client vars with
    | .error _ => some ([], [vars])
    | .ok result =>
      (processRepositoryNodes (fun v => retrieveQueryResults client paginate fuel v)
          paginate vars
          ((result.organization.repositories.nodes.getD []).filterMap id)).bind
        fun (repoResults, repoCalls) =>
          (processAdditionalPagesAux (fun v => retrieveQueryResults client paginate fuel v)
              paginate result.organization.repositories.pageInfo
              { vars with
                  endCursor := result.organization.repositories.pageInfo.endCursor
                  innerCursor := none }).map
            fun (outerResults, outerCalls) =>
              (repoResults ++ outerResults, vars :: (repoCalls ++ outerCalls))

/-- `processAdditionalPages` as the source names it: the pagination guard
around the recursive `retrieveQueryResults` call (argument order of the
source, plus the embedding's fuel). -/
def processAdditionalPages (paginate : Bool) (pageInfo : PageInfo)
    (client : QueryExecutor) (fuel : Nat) (context : UserPermissionQueryVariables) :
    Option QueryOutcome :=
  processAdditionalPagesAux (fun v => retrieveQueryResults client paginate fuel v)
    paginate pageInfo context

/-- `getUniqueInstances`: the source serializes each record with
`JSON.stringify` (a fixed field order, injective on these records), feeds
the strings to a `Set` — which deduplicates by string equality and iterates
in insertion order — and parses each survivor back.  Net effect, embedded
directly: keep the first occurrence of each structurally-equal record. -/
def getUniqueInstances (instance_ : List UserPermissionSummary) :
    List UserPermissionSummary :=
  instance_.foldl (fun unique item => if item ∈ unique then unique else unique ++ [item]) []

/-- The available sort columns. -/
inductive SortColumn where
  | user
  | repository
deriving DecidableEq, Repr

/-- Model of `String.prototype.localeCompare`: a sign value drawn from a
total order on strings (the embedding uses Lean's lexicographic order; the
proofs rely only on it being a linear order). -/
def localeCompare (a b : String) : Int :=
  if a < b then -1 else if b < a then 1 else 0

/-- JavaScript `x || y` on comparator results: the first operand unless it
is `0` (falsy). -/
def jsOr (a b : Int) : Int :=
  if a = 0 then b else a

/-- The `"user"` comparator of the `sortBy` map:
`left.handle.localeCompare(right.handle) || left.repository.localeCompare(right.repository)`. -/
def userCompare (left right : UserPermissionSummary) : Int :=
  jsOr (localeCompare left.handle right.handle)
    (localeCompare left.repository right.repository)

/-- The `"repository"` comparator of the `sortBy` map. -/
def repositoryCompare (left right : UserPermissionSummary) : Int :=
  jsOr (localeCompare left.repository right.repository)
    (localeCompare left.handle right.handle)

/-- The comparator selected by `sortBy[by]`. -/
def sortComparator : SortColumn → UserPermissionSummary → UserPermissionSummary → Int
  | .user => userCompare
  | .repository => repositoryCompare

/-- `sort(results, by)`: `Array.prototype.sort` with the selected
comparator; the ECMAScript sort is stable, embedded as a stable merge
sort on `comparator ≤ 0`. -/
def sort (results : List UserPermissionSummary) (column : SortColumn) :
    List UserPermissionSummary :=
  results.mergeSort fun left right => decide (sortComparator column left right ≤ 0)

/-- `execute`: the orchestrator — initial vars with both cursors null,
retrieve, deduplicate, sort. -/
def execute (client : QueryExecutor) (organization : String) (paginate : Bool)
    (sortColumn : SortColumn) (fuel : Nat) : Option (List UserPermissionSummary) :=
  (retrieveQueryResults client paginate fuel
      { orgname := organization, endCursor := none, innerCursor := none }).map
    fun outcome => sort (getUniqueInstances outcome.1) sortColumn

/-- The index a cursor value decodes to in the scripted mock executor:
`null` requests the first page; the cursor returned by page `i` has length
`i + 1` and requests page `i + 1`. -/
def cursorIndex : Option String → Nat
  | none => 0
  | some s => s.length

/-- The outer (repository-connection) cursor returned by outer page `i`. -/
def outerCursorString (i : Nat) : String :=
  String.mk (List.replicate (i + 1) 'o')

/-- The inner (collaborator-connection) cursor returned by inner page `i`. -/
def innerCursorString (i : Nat) : String :=
  String.mk (List.replicate (i + 1) 'i')

/-- One repository of a mock script: its name and its inner pages of
collaborator edges. -/
structure RepoScript where
  name : String
  pages : List (List CollaboratorEdge)
deriving DecidableEq, Repr

/-- A mock script: the outer pages, each a batch of repositories. -/
structure MockScript where
  orgPages : List (List RepoScript)
deriving DecidableEq, Repr

/-- The repository node the mock executor shows for a scripted repository
when the inner cursor decodes to inner page `j`: that page's edges (empty
beyond the end) and an inner `PageInfo` reporting whether page `j + 1`
exists. -/
def mkRepoNode (j : Nat) (repo : RepoScript) : RepoNode :=
  { nameWithOwner := some repo.name
    collaborators := some
      { edges := some ((repo.pages.getD j []).map some)
        pageInfo :=
          { hasNextPage := decide (j + 1 < repo.pages.length)
            endCursor := some (innerCursorString j) } } }

/-- The scripted mock executor: a total (never-failing) executor whose
response to a variable set shows outer page `cursorIndex endCursor`, each
of its repositories at inner page `cursorIndex innerCursor`, with
`hasNextPage` turning false exactly when the next page index runs off the
script. -/
def mkExec (script : MockScript) : QueryExecutor := fun vars =>
  let i := cursorIndex vars.endCursor
  let j := cursorIndex vars.innerCursor
  .ok
    { organization :=
      { repositories :=
        { nodes := some (((script.orgPages.getD i []).map (mkRepoNode j)).map some)
          pageInfo :=
            { hasNextPage := decide (i + 1 < script.orgPages.length)
              endCursor := some (outerCursorString i) } } } }

/-- The summary the engine produces for edge `e` of scripted repository
`repo` (independent of the inner page index the node was shown at). -/
def mockSummary (repo : RepoScript) (e : CollaboratorEdge) : UserPermissionSummary :=
  createUserSummary (mkRepoNode 0 repo) e

theorem createUserSummary_mkRepoNode (j : Nat) (repo : RepoScript) (e : CollaboratorEdge) :
    createUserSummary (mkRepoNode j repo) e = mockSummary repo e :=
  rfl

/-- Projection of one response page, as performed by the repository loop
with pagination disabled: collaborator summaries of every non-null node,
nothing else. -/
def firstPageRecords (result : QueryPayload) : List UserPermissionSummary :=
  ((result.organization.repositories.nodes.getD []).filterMap id).flatMap fun repo =>
    match repo.collaborators with
    | some collaborators => processCollaborators repo collaborators
    | none => []

theorem retrieveQueryResults_error {client : QueryExecutor} {paginate : Bool}
    {fuel : Nat} {vars : UserPermissionQueryVariables} {e : String}
    (h : client vars = .error e) :
    retrieveQueryResults client paginate (fuel + 1) vars = some ([], [vars]) := by
  simp [retrieveQueryResults, h]

theorem retrieveQueryResults_calls_head {client : QueryExecutor} {paginate : Bool}
    {fuel : Nat} {vars : UserPermissionQueryVariables} {res calls}
    (h : retrieveQueryResults client paginate fuel vars = some (res, calls)) :
    ∃ rest, calls = vars :: rest := by
  cases fuel with
  | zero => simp [retrieveQueryResults] at h
  | succ f =>
    cases hc : client vars with
    | error e =>
      rw [retrieveQueryResults_error hc] at h
      simp only [Option.some.injEq, Prod.mk.injEq] at h
      exact ⟨[], h.2.symm⟩
    | ok result =>
      rw [retrieveQueryResults, hc] at h
      simp only [Option.bind_eq_some] at h
      obtain ⟨⟨repoResults, repoCalls⟩, -, h2⟩ := h
      simp only [Option.map_eq_some'] at h2
      obtain ⟨⟨outerResults, outerCalls⟩, -, h3⟩ := h2
      simp only [Prod.mk.injEq] at h3
      exact ⟨_, h3.2.symm⟩

theorem processAdditionalPagesAux_of_false {recur} {pageInfo : PageInfo}
    {ctx : UserPermissionQueryVariables} :
    processAdditionalPagesAux recur false pageInfo ctx = some ([], []) := by
  simp [processAdditionalPagesAux]

theorem processAdditionalPagesAux_no_next {recur} {paginate : Bool} {pageInfo : PageInfo}
    {ctx : UserPermissionQueryVariables}
    (h : pageInfo.hasNextPage = false ∨ pageInfo.endCursor = none) :
    processAdditionalPagesAux recur paginate pageInfo ctx = some ([], []) := by
  rcases h with h | h <;> simp [processAdditionalPagesAux, h, jsTruthy]

theorem processAdditionalPagesAux_of_cond {recur} {paginate : Bool} {pageInfo : PageInfo}
    {ctx : UserPermissionQueryVariables}
    (h : (paginate && pageInfo.hasNextPage && jsTruthy pageInfo.endCursor) = true) :
    processAdditionalPagesAux recur paginate pageInfo ctx = recur ctx := by
  simp [processAdditionalPagesAux, h]

theorem processRepositoryNodes_of_false {recur} {vars : UserPermissionQueryVariables}
    {repos : List RepoNode} :
    processRepositoryNodes recur false vars repos =
      some (repos.flatMap (fun repo =>
        match repo.collaborators with
        | some collaborators => processCollaborators repo collaborators
        | none => []), []) := by
  induction repos with
  | nil => simp [processRepositoryNodes]
  | cons repo rest ih =>
    cases h : repo.collaborators with
    | none => simp [processRepositoryNodes, h, ih]
    | some collaborators =>
      simp [processRepositoryNodes, h, ih, processAdditionalPagesAux_of_false]

/-- Claim C7: with pagination disabled the engine issues exactly one
executor call — the trace is `[vars]` — and returns exactly the first
page's projected records (empty on failure), whatever `hasNextPage` and
`endCursor` values any connection reports. -/
theorem paginateDisabled_single_call (client : QueryExecutor)
    (vars : UserPermissionQueryVariables) (fuel : Nat) :
    retrieveQueryResults client false (fuel + 1) vars =
      some ((match client vars with
              | .ok result => firstPageRecords result
              | .error _ => []), [vars]) := by
  cases hc : client vars with
  | error e => exact retrieveQueryResults_error hc
  | ok result =>
    rw [retrieveQueryResults, hc]
    simp [processRepositoryNodes_of_false, processAdditionalPagesAux_of_false,
      firstPageRecords]

theorem processRepositoryNodes_mem {recur} {paginate : Bool}
    {vars : UserPermissionQueryVariables} {repos : List RepoNode} {res calls}
    (h : processRepositoryNodes recur paginate vars repos = some (res, calls)) :
    ∀ repo ∈ repos, ∀ collaborators, repo.collaborators = some collaborators →
      (∀ x ∈ processCollaborators repo collaborators, x ∈ res) ∧
      ((paginate && collaborators.pageInfo.hasNextPage &&
          jsTruthy collaborators.pageInfo.endCursor) = true →
        ∃ innerResults innerCalls,
          recur { vars with innerCursor := collaborators.pageInfo.endCursor } =
            some (innerResults, innerCalls) ∧
          (∀ x ∈ innerResults, x ∈ res) ∧ (∀ v ∈ innerCalls, v ∈ calls)) := by
  induction repos generalizing res calls with
  | nil => simp
  | cons first rest ih =>
    intro repo hrepo collaborators hcol
    cases hfc : first.collaborators with
    | none =>
      rw [processRepositoryNodes, hfc] at h
      rcases List.mem_cons.mp hrepo with rfl | hmem
      · exact absurd hcol (by simp [hfc])
      · exact ih h repo hmem collaborators hcol
    | some fcol =>
      rw [processRepositoryNodes, hfc] at h
      simp only [Option.bind_eq_some] at h
      obtain ⟨⟨innerResults, innerCalls⟩, hinner, h2⟩ := h
      simp only [Option.map_eq_some'] at h2
      obtain ⟨⟨restResults, restCalls⟩, hrest, h3⟩ := h2
      simp only [Prod.mk.injEq] at h3
      obtain ⟨hres, hcalls⟩ := h3
      subst hres hcalls
      rcases List.mem_cons.mp hrepo with rfl | hmem
      · rw [hfc] at hcol
        injection hcol with hcol
        subst hcol
        refine ⟨fun x hx => by simp [hx], fun hcond => ?_⟩
        rw [processAdditionalPagesAux_of_cond hcond] at hinner
        exact ⟨innerResults, innerCalls, hinner,
          fun x hx => by simp [hx], fun v hv => by simp [hv]⟩
      · obtain ⟨h1, h2⟩ := ih hrest repo hmem collaborators hcol
        refine ⟨fun x hx => by simp [h1 x hx], fun hcond => ?_⟩
        obtain ⟨ir, ic, hr, hsub, hcsub⟩ := h2 hcond
        exact ⟨ir, ic, hr, fun x hx => by simp [hsub x hx],
          fun v hv => by simp [hcsub v hv]⟩

theorem processRepositoryNodes_isSome {recur} {paginate : Bool}
    {vars : UserPermissionQueryVariables} {repos : List RepoNode}
    (h : ∀ repo ∈ repos, ∀ collaborators, repo.collaborators = some collaborators →
      (paginate && collaborators.pageInfo.hasNextPage &&
        jsTruthy collaborators.pageInfo.endCursor) = true →
      (recur { vars with innerCursor := collaborators.pageInfo.endCursor }).isSome) :
    (processRepositoryNodes recur paginate vars repos).isSome := by
  induction repos with
  | nil => simp [processRepositoryNodes]
  | cons first rest ih =>
    have hrest : (processRepositoryNodes recur paginate vars rest).isSome :=
      ih fun repo hrepo => h repo (List.mem_cons_of_mem _ hrepo)
    cases hfc : first.collaborators with
    | none => rw [processRepositoryNodes, hfc]; exact hrest
    | some fcol =>
      rw [processRepositoryNodes, hfc]
      have hinner : (processAdditionalPagesAux recur paginate fcol.pageInfo
          { vars with innerCursor := fcol.pageInfo.endCursor }).isSome := by
        rw [processAdditionalPagesAux]
        split
        · exact h first (List.mem_cons_self _ _) fcol hfc (by assumption)
        · simp
      obtain ⟨⟨innerResults, innerCalls⟩, hi⟩ := Option.isSome_iff_exists.mp hinner
      obtain ⟨⟨restResults, restCalls⟩, hr⟩ := Option.isSome_iff_exists.mp hrest
      simp [hi, hr]

theorem filterMap_id_map_some {α : Type _} (l : List α) :
    (l.map some).filterMap id = l := by
  induction l with
  | nil => rfl
  | cons a rest ih => simp [ih]

theorem length_outerCursorString (i : Nat) : (outerCursorString i).length = i + 1 := by
  simp [outerCursorString, String.length]

theorem length_innerCursorString (i : Nat) : (innerCursorString i).length = i + 1 := by
  simp [innerCursorString, String.length]

theorem outerCursorString_ne_empty (i : Nat) : outerCursorString i ≠ "" := by
  intro h
  have := length_outerCursorString i
  rw [h] at this
  simp at this

theorem innerCursorString_ne_empty (i : Nat) : innerCursorString i ≠ "" := by
  intro h
  have := length_innerCursorString i
  rw [h] at this
  simp at this

theorem jsTruthy_outerCursorString (i : Nat) :
    jsTruthy (some (outerCursorString i)) = true := by
  simp [jsTruthy, outerCursorString_ne_empty i]

theorem jsTruthy_innerCursorString (i : Nat) :
    jsTruthy (some (innerCursorString i)) = true := by
  simp [jsTruthy, innerCursorString_ne_empty i]

theorem cursorIndex_outerCursorString (i : Nat) :
    cursorIndex (some (outerCursorString i)) = i + 1 :=
  length_outerCursorString i

theorem cursorIndex_innerCursorString (i : Nat) :
    cursorIndex (some (innerCursorString i)) = i + 1 :=
  length_innerCursorString i

theorem mem_getD_lt_length {α : Type _} {l : List (List α)} {i : Nat} {x : α}
    (h : x ∈ l.getD i []) : i < l.length := by
  by_contra hge
  rw [List.getD_eq_default _ _ (Nat.le_of_not_lt hge)] at h
  exact absurd h (List.not_mem_nil x)

theorem getD_mem_of_lt {α : Type _} {l : List (List α)} {i : Nat}
    (h : i < l.length) : l.getD i [] ∈ l := by
  rw [List.getD_eq_getElem l [] h]
  exact List.getElem_mem h

theorem retrieveQueryResults_ok {client : QueryExecutor} {paginate : Bool}
    {fuel : Nat} {vars : UserPermissionQueryVariables} {result : QueryPayload}
    (h : client vars = .ok result) :
    retrieveQueryResults client paginate (fuel + 1) vars =
      (processRepositoryNodes (fun v => retrieveQueryResults client paginate fuel v)
          paginate vars
          ((result.organization.repositories.nodes.getD []).filterMap id)).bind
        fun (repoResults, repoCalls) =>
          (processAdditionalPagesAux (fun v => retrieveQueryResults client paginate fuel v)
              paginate result.organization.repositories.pageInfo
              { vars with
                  endCursor := result.organization.repositories.pageInfo.endCursor
                  innerCursor := none }).map
            fun (outerResults, outerCalls) =>
              (repoResults ++ outerResults, vars :: (repoCalls ++ outerCalls)) := by
  rw [retrieveQueryResults, h]

/-- The response the mock executor gives at decoded cursor position
`(i, j)`. -/
def mockPayload (script : MockScript) (i j : Nat) : QueryPayload :=
  { organization :=
    { repositories :=
      { nodes := some (((script.orgPages.getD i []).map (mkRepoNode j)).map some)
        pageInfo :=
          { hasNextPage := decide (i + 1 < script.orgPages.length)
            endCursor := some (outerCursorString i) } } } }

theorem mkExec_eq_ok (script : MockScript) (vars : UserPermissionQueryVariables) :
    mkExec script vars =
      .ok (mockPayload script (cursorIndex vars.endCursor) (cursorIndex vars.innerCursor)) :=
  rfl

theorem mockPayload_nodes (script : MockScript) (i j : Nat) :
    (((mockPayload script i j).organization.repositories.nodes.getD []).filterMap id) =
      (script.orgPages.getD i []).map (mkRepoNode j) := by
  simp [mockPayload, filterMap_id_map_some]

/-- The fuel potential of a mock run positioned at decoded cursor indices
`(i, j)`; it strictly decreases along every recursive call the engine makes
against `mkExec script`, provided every scripted repository has at most `B`
inner pages. -/
def mockPotential (script : MockScript) (B i j : Nat) : Nat :=
  (script.orgPages.length - i) * (B + 1) - min j B

/-- Any fuel above the potential of the starting position completes a
paginated run against the mock executor: the recursion terminates because
every recursive step needs `hasNextPage` with a truthy cursor, and the
script reports `hasNextPage = false` at its edges. -/
theorem mock_run_isSome (script : MockScript) (B : Nat)
    (hB : ∀ page ∈ script.orgPages, ∀ repo ∈ page, repo.pages.length ≤ B) :
    ∀ fuel vars,
      mockPotential script B (cursorIndex vars.endCursor) (cursorIndex vars.innerCursor)
          < fuel →
      (retrieveQueryResults (mkExec script) true fuel vars).isSome := by
  intro fuel
  induction fuel with
  | zero => exact fun vars h => absurd h (Nat.not_lt_zero _)
  | succ f ih =>
    intro vars hfuel
    rw [retrieveQueryResults_ok (mkExec_eq_ok script vars), mockPayload_nodes]
    have hpRN : (processRepositoryNodes
        (fun v => retrieveQueryResults (mkExec script) true f v) true vars
        ((script.orgPages.getD (cursorIndex vars.endCursor) []).map
          (mkRepoNode (cursorIndex vars.innerCursor)))).isSome := by
      apply processRepositoryNodes_isSome
      intro repo hrepo collaborators hcol hcond
      obtain ⟨r, hr, rfl⟩ := List.mem_map.mp hrepo
      rw [mkRepoNode] at hcol
      injection hcol with hcol
      subst hcol
      simp only [Bool.and_eq_true, decide_eq_true_eq] at hcond
      have hlen : cursorIndex vars.innerCursor + 1 < r.pages.length := hcond.1.2
      have hiN : cursorIndex vars.endCursor < script.orgPages.length :=
        mem_getD_lt_length hr
      have hrB : r.pages.length ≤ B :=
        hB _ (getD_mem_of_lt hiN) r hr
      apply ih
      simp only [cursorIndex_innerCursorString, mockPotential]
      simp only [mockPotential] at hfuel
      have hQ : B + 1 ≤ (script.orgPages.length - cursorIndex vars.endCursor) * (B + 1) :=
        Nat.le_mul_of_pos_left (B + 1) (by omega)
      omega
    obtain ⟨⟨repoResults, repoCalls⟩, hpr⟩ := Option.isSome_iff_exists.mp hpRN
    rw [hpr]
    simp only [Option.some_bind]
    have hpap : (processAdditionalPagesAux
        (fun v => retrieveQueryResults (mkExec script) true f v) true
        (mockPayload script (cursorIndex vars.endCursor) (cursorIndex vars.innerCursor)
          ).organization.repositories.pageInfo
        { vars with
            endCursor := (mockPayload script (cursorIndex vars.endCursor)
              (cursorIndex vars.innerCursor)).organization.repositories.pageInfo.endCursor
            innerCursor := none }).isSome := by
      rw [processAdditionalPagesAux]
      split
      · next hcond =>
        simp only [mockPayload, Bool.and_eq_true, decide_eq_true_eq] at hcond
        have hiN : cursorIndex vars.endCursor + 1 < script.orgPages.length := hcond.1.2
        apply ih
        simp only [mockPayload]
        rw [show cursorIndex (some (outerCursorString (cursorIndex vars.endCursor))) =
          cursorIndex vars.endCursor + 1 from cursorIndex_outerCursorString _]
        rw [show cursorIndex (none : Option String) = 0 from rfl]
        simp only [mockPotential]
        simp only [mockPotential] at hfuel
        have hsplit : script.orgPages.length - cursorIndex vars.endCursor =
            (script.orgPages.length - (cursorIndex vars.endCursor + 1)) + 1 := by omega
        rw [hsplit, Nat.succ_mul] at hfuel
        omega
      · simp
    obtain ⟨⟨outerResults, outerCalls⟩, hpo⟩ := Option.isSome_iff_exists.mp hpap
    rw [hpo]
    simp

theorem processCollaborators_mock (j : Nat) (r : RepoScript) :
    processCollaborators (mkRepoNode j r)
        { edges := some ((r.pages.getD j []).map some)
          pageInfo :=
            { hasNextPage := decide (j + 1 < r.pages.length)
              endCursor := some (innerCursorString j) } } =
      (r.pages.getD j []).map (mockSummary r) := by
  simp only [processCollaborators, Option.getD_some, filterMap_id_map_some]
  rfl

/-- Any completed paginated run against a scripted mock, started at decoded
cursor position `(endCursor, innerCursor)`, contains the summary of every
scripted edge at or beyond that position: nothing supplied by the executor
is lost. -/
theorem mock_run_covers (script : MockScript) :
    ∀ fuel vars res calls,
      retrieveQueryResults (mkExec script) true fuel vars = some (res, calls) →
      ∀ i repo j e,
        cursorIndex vars.endCursor ≤ i →
        repo ∈ script.orgPages.getD i [] →
        (i = cursorIndex vars.endCursor → cursorIndex vars.innerCursor ≤ j) →
        j < repo.pages.length →
        e ∈ repo.pages.getD j [] →
        mockSummary repo e ∈ res := by
  intro fuel
  induction fuel with
  | zero => intro vars res calls h; simp [retrieveQueryResults] at h
  | succ f ih =>
    intro vars res calls h i repo j e hle_i hmem hinner hjlen hedge
    rw [retrieveQueryResults_ok (mkExec_eq_ok script vars), mockPayload_nodes] at h
    simp only [Option.bind_eq_some] at h
    obtain ⟨⟨repoResults, repoCalls⟩, hpr, h2⟩ := h
    simp only [Option.map_eq_some'] at h2
    obtain ⟨⟨outerResults, outerCalls⟩, hpo, h3⟩ := h2
    simp only [Prod.mk.injEq] at h3
    obtain ⟨hres, -⟩ := h3
    subst hres
    have hiN : i < script.orgPages.length := mem_getD_lt_length hmem
    rcases Nat.eq_or_lt_of_le hle_i with heq | hlt
    · -- the requested outer page is the one this response shows
      subst heq
      have hnode : mkRepoNode (cursorIndex vars.innerCursor) repo ∈
          (script.orgPages.getD (cursorIndex vars.endCursor) []).map
            (mkRepoNode (cursorIndex vars.innerCursor)) :=
        List.mem_map_of_mem _ hmem
      have hmemfacts := processRepositoryNodes_mem hpr _ hnode _ rfl
      rcases Nat.eq_or_lt_of_le (hinner rfl) with hjeq | hjlt
      · -- the requested inner page is the one this response shows
        subst hjeq
        apply List.mem_append_left
        apply hmemfacts.1
        rw [processCollaborators_mock]
        exact List.mem_map_of_mem _ hedge
      · -- deeper inner page: follow the inner recursion of this repository
        have hcond : (true && decide (cursorIndex vars.innerCursor + 1 < repo.pages.length)
            && jsTruthy (some (innerCursorString (cursorIndex vars.innerCursor)))) = true := by
          simp [jsTruthy_innerCursorString]
          omega
        obtain ⟨ir, ic, hrec, hsub, -⟩ := hmemfacts.2 hcond
        apply List.mem_append_left
        apply hsub
        refine ih _ _ _ hrec _ repo j e ?_ hmem ?_ hjlen hedge
        · exact le_refl _
        · intro _
          show cursorIndex (some (innerCursorString (cursorIndex vars.innerCursor))) ≤ j
          rw [cursorIndex_innerCursorString]
          omega
    · -- later outer page: follow the outer recursion of this response
      simp only [mockPayload] at hpo
      have hcond : (true && decide (cursorIndex vars.endCursor + 1 < script.orgPages.length)
          && jsTruthy (some (outerCursorString (cursorIndex vars.endCursor)))) = true := by
        simp [jsTruthy_outerCursorString]
        omega
      rw [processAdditionalPagesAux_of_cond hcond] at hpo
      apply List.mem_append_right
      refine ih _ _ _ hpo i repo j e ?_ hmem ?_ hjlen hedge
      · show cursorIndex (some (outerCursorString (cursorIndex vars.endCursor))) ≤ i
        rw [cursorIndex_outerCursorString]
        omega
      · intro _
        exact Nat.zero_le j

/-- A collaborator edge with a direct permission and no permission
sources, used by the concrete executor scripts. -/
def sampleEdge (login : String) : CollaboratorEdge :=
  { permission := "ADMIN", permissionSources := none, login := login }

/-- The initial variable set the orchestrator builds: both cursors null. -/
def initialVars : UserPermissionQueryVariables :=
  { orgname := "acme", endCursor := none, innerCursor := none }

/-- A script with three outer pages of one repository each, every
repository having exactly two inner pages of one collaborator each:
`hasNextPage` turns false after `N = 3` outer pages and `M = 2` inner
pages. -/
def scriptThreeByTwo : MockScript :=
  { orgPages :=
    [ [ { name := "acme/r0", pages := [[sampleEdge "u00"], [sampleEdge "u01"]] } ],
      [ { name := "acme/r1", pages := [[sampleEdge "u10"], [sampleEdge "u11"]] } ],
      [ { name := "acme/r2", pages := [[sampleEdge "u20"], [sampleEdge "u21"]] } ] ] }

/-- Claim C1, counterexample: a mock executor in the claim's class with
`N = 3` outer pages and `M = 2` inner pages each, against which the
paginated run issues 14 executor calls, exceeding the claimed bound
`N + N × M = 9`: every inner-page recursion re-runs the outer-pagination
step of its own response, so the call count grows like `M + M² + ... + M^N`,
not linearly. -/
theorem callBound_counterexample :
    scriptThreeByTwo.orgPages.length = 3 ∧
    (∀ page ∈ scriptThreeByTwo.orgPages, ∀ repo ∈ page, repo.pages.length = 2) ∧
    (retrieveQueryResults (mkExec scriptThreeByTwo) true 20 initialVars).map
        (fun out => out.2.length) = some 14 ∧
    ¬ (14 ≤ 3 + 3 * 2) := by
  refine ⟨rfl, ?_, by decide, by decide⟩
  decide

/-- Claim C1 (amended): for every mock executor in the claim's class
(`hasNextPage` false after `N` outer pages and `M` inner pages per
repository), the paginated run completes within fuel `N × (M + 1) + 1`
and its result contains every collaborator record present in the script —
no record is lost.  The claimed call-count bound `N + N × M` does not hold
(see the counterexample) and is dropped. -/
theorem paginationEnabled_covers (script : MockScript) (M : Nat) (org : String)
    (hM : ∀ page ∈ script.orgPages, ∀ repo ∈ page, repo.pages.length = M) :
    ∃ res calls,
      retrieveQueryResults (mkExec script) true (script.orgPages.length * (M + 1) + 1)
          { orgname := org, endCursor := none, innerCursor := none } = some (res, calls) ∧
      ∀ i repo j e, repo ∈ script.orgPages.getD i [] → j < repo.pages.length →
        e ∈ repo.pages.getD j [] → mockSummary repo e ∈ res := by
  have hsome := mock_run_isSome script M
    (fun page hp repo hr => le_of_eq (hM page hp repo hr))
    (script.orgPages.length * (M + 1) + 1)
    { orgname := org, endCursor := none, innerCursor := none }
    (by simp [mockPotential, cursorIndex])
  obtain ⟨⟨res, calls⟩, hrun⟩ := Option.isSome_iff_exists.mp hsome
  refine ⟨res, calls, hrun, fun i repo j e hmem hjl hedge => ?_⟩
  exact mock_run_covers script _ _ _ _ hrun i repo j e (Nat.zero_le _) hmem
    (fun _ => Nat.zero_le _) hjl hedge

theorem paginationEnabled_covers_witness :
    ∃ res calls,
      retrieveQueryResults (mkExec scriptThreeByTwo) true
          (scriptThreeByTwo.orgPages.length * (2 + 1) + 1) initialVars = some (res, calls) ∧
      ∀ i repo j e, repo ∈ scriptThreeByTwo.orgPages.getD i [] → j < repo.pages.length →
        e ∈ repo.pages.getD j [] → mockSummary repo e ∈ res :=
  paginationEnabled_covers scriptThreeByTwo 2 "acme" (by decide)

/-- One scripted repository with two one-collaborator inner pages, used to
exercise inner pagination and its failure. -/
def innerFailRepo : RepoScript :=
  { name := "acme/widgets", pages := [[sampleEdge "alice"], [sampleEdge "bob"]] }

/-- A script with a single outer page holding `innerFailRepo`. -/
def innerFailScript : MockScript := { orgPages := [[innerFailRepo]] }

/-- An executor that answers like `mkExec innerFailScript` except that the
second inner-page fetch (the request carrying the first inner cursor)
throws. -/
def innerFailingExec : QueryExecutor := fun vars =>
  if vars.innerCursor = some (innerCursorString 0) then .error "network failure"
  else mkExec innerFailScript vars

/-- Claim C2: query failure is contained.  First conjunct (general): at
whatever recursion level the executor throws, that level's subtree comes
back as the empty sequence with only its own call recorded, and the engine
still returns a value — no exception escapes.  Second and third conjuncts
(concrete partial-failure scenario of the spec): when the second
inner-page fetch throws, the run still succeeds and the first inner page's
record is present in the final output. -/
theorem queryFailure_contained :
    (∀ (client : QueryExecutor) (paginate : Bool) (fuel : Nat)
        (vars : UserPermissionQueryVariables) (e : String),
      client vars = .error e →
      retrieveQueryResults client paginate (fuel + 1) vars = some ([], [vars])) ∧
    innerFailingExec { initialVars with innerCursor := some (innerCursorString 0) } =
      .error "network failure" ∧
    retrieveQueryResults innerFailingExec true 5 initialVars =
      some ([mockSummary innerFailRepo (sampleEdge "alice")],
            [initialVars, { initialVars with innerCursor := some (innerCursorString 0) }]) := by
  refine ⟨?_, rfl, by decide⟩
  intro client paginate fuel vars e h
  exact retrieveQueryResults_error h

theorem queryFailure_contained_witness :
    retrieveQueryResults (fun _ => .error "boom") true 3 initialVars =
      some ([], [initialVars]) :=
  queryFailure_contained.1 (fun _ => .error "boom") true 2 initialVars "boom" rfl

/-- An executor whose single response carries an inner collaborator
connection with `hasNextPage = true` and the non-null but empty cursor
`""`. -/
def emptyCursorExec : QueryExecutor := fun _ =>
  .ok { organization :=
    { repositories :=
      { nodes := some [some
          { nameWithOwner := some "acme/widgets"
            collaborators := some
              { edges := some [some (sampleEdge "alice")]
                pageInfo := { hasNextPage := true, endCursor := some "" } } }]
        pageInfo := { hasNextPage := false, endCursor := none } } } }

/-- Claim C3, counterexample: an inner connection reporting
`hasNextPage = true` with the non-null cursor `some ""` triggers no
recursive call at all — the engine tests the cursor for JavaScript
truthiness, and the empty string is falsy — so no recursive call receives
the derived variable set; the trace stays `[initialVars]`. -/
theorem derivedVars_empty_cursor_counterexample :
    (∃ result, emptyCursorExec initialVars = .ok result ∧
      (((result.organization.repositories.nodes.getD []).filterMap id).map
        fun repo => repo.collaborators.map
          fun c => (c.pageInfo.hasNextPage, c.pageInfo.endCursor)) =
        [some (true, some "")]) ∧
    (retrieveQueryResults emptyCursorExec true 5 initialVars).map (fun out => out.2) =
      some [initialVars] ∧
    { initialVars with innerCursor := some "" } ∉ [initialVars] := by
  refine ⟨⟨_, rfl, by decide⟩, by decide, by decide⟩

/-- Claim C3 (amended): whenever a response page is processed with
pagination enabled and an inner collaborator connection reports
`hasNextPage = true` with a non-null, non-empty `endCursor`, the engine
issues a recursive call whose variable set is freshly derived from the
current one — same outer cursor, inner cursor advanced to that
`endCursor`; and when the outer repository connection reports
`hasNextPage = true` with a non-null, non-empty `endCursor`, it issues a
recursive call whose variable set holds the advanced outer cursor and a
reset (null) inner cursor.  (The derivation copies the prior set —
`Object.assign({}, vars, ...)` — which the pure embedding renders as a
record update; the claim's "non-null" alone is not enough, by the
counterexample.) -/
theorem derivedVars_on_recursion {client : QueryExecutor} {fuel : Nat}
    {vars : UserPermissionQueryVariables} {res calls} {result : QueryPayload}
    (hrun : retrieveQueryResults client true fuel vars = some (res, calls))
    (hok : client vars = .ok result) :
    (∀ repo ∈ (result.organization.repositories.nodes.getD []).filterMap id,
      ∀ collaborators, repo.collaborators = some collaborators →
        collaborators.pageInfo.hasNextPage = true →
        ∀ c, collaborators.pageInfo.endCursor = some c → c ≠ "" →
          { vars with innerCursor := some c } ∈ calls) ∧
    (result.organization.repositories.pageInfo.hasNextPage = true →
      ∀ c, result.organization.repositories.pageInfo.endCursor = some c → c ≠ "" →
        { orgname := vars.orgname, endCursor := some c, innerCursor := none } ∈ calls) := by
  cases fuel with
  | zero => simp [retrieveQueryResults] at hrun
  | succ f =>
    rw [retrieveQueryResults_ok hok] at hrun
    simp only [Option.bind_eq_some] at hrun
    obtain ⟨⟨repoResults, repoCalls⟩, hpr, h2⟩ := hrun
    simp only [Option.map_eq_some'] at h2
    obtain ⟨⟨outerResults, outerCalls⟩, hpo, h3⟩ := h2
    simp only [Prod.mk.injEq] at h3
    obtain ⟨-, hcalls⟩ := h3
    subst hcalls
    constructor
    · intro repo hmem collaborators hcol hnext c hc hne
      have hcond : (true && collaborators.pageInfo.hasNextPage &&
          jsTruthy collaborators.pageInfo.endCursor) = true := by
        simp [hnext, hc, jsTruthy, hne]
      obtain ⟨ir, ic, hrec, -, hcallsub⟩ :=
        (processRepositoryNodes_mem hpr repo hmem collaborators hcol).2 hcond
      rw [hc] at hrec
      obtain ⟨rest, hrest⟩ := retrieveQueryResults_calls_head hrec
      have : { vars with innerCursor := some c } ∈ ic := by
        rw [hrest]; exact List.mem_cons_self _ _
      exact List.mem_cons_of_mem _ (List.mem_append_left _ (hcallsub _ this))
    · intro hnext c hc hne
      have hcond : (true && result.organization.repositories.pageInfo.hasNextPage &&
          jsTruthy result.organization.repositories.pageInfo.endCursor) = true := by
        simp [hnext, hc, jsTruthy, hne]
      rw [processAdditionalPagesAux_of_cond hcond] at hpo
      obtain ⟨rest, hrest⟩ := retrieveQueryResults_calls_head hpo
      have : ({ vars with
          endCursor := result.organization.repositories.pageInfo.endCursor
          innerCursor := none } : UserPermissionQueryVariables) ∈ outerCalls := by
        rw [hrest]; exact List.mem_cons_self _ _
      rw [hc] at this
      exact List.mem_cons_of_mem _ (List.mem_append_right _ this)

theorem derivedVars_on_recursion_witness :
    retrieveQueryResults (mkExec innerFailScript) true 5 initialVars =
      some ([mockSummary innerFailRepo (sampleEdge "alice"),
             mockSummary innerFailRepo (sampleEdge "bob")],
            [initialVars, { initialVars with innerCursor := some (innerCursorString 0) }]) ∧
    mkExec innerFailScript initialVars = .ok (mockPayload innerFailScript 0 0) ∧
    { initialVars with innerCursor := some (innerCursorString 0) } ∈
      [initialVars, { initialVars with innerCursor := some (innerCursorString 0) }] := by
  have hrun : retrieveQueryResults (mkExec innerFailScript) true 5 initialVars =
      some ([mockSummary innerFailRepo (sampleEdge "alice"),
             mockSummary innerFailRepo (sampleEdge "bob")],
            [initialVars, { initialVars with innerCursor := some (innerCursorString 0) }]) := by
    decide
  have hok : mkExec innerFailScript initialVars = .ok (mockPayload innerFailScript 0 0) := rfl
  refine ⟨hrun, hok, ?_⟩
  exact (derivedVars_on_recursion hrun hok).1 (mkRepoNode 0 innerFailRepo) (by decide)
    _ rfl (by decide) (innerCursorString 0) rfl (by decide)

/-- Two scripted repositories with two one-collaborator pages each, sharing
a single outer page: inner pagination of either repository re-fetches the
whole outer page. -/
def dupRepoA : RepoScript :=
  { name := "acme/alpha", pages := [[sampleEdge "a0"], [sampleEdge "a1"]] }

def dupRepoB : RepoScript :=
  { name := "acme/beta", pages := [[sampleEdge "b0"], [sampleEdge "b1"]] }

def dupScript : MockScript := { orgPages := [[dupRepoA, dupRepoB]] }

/-- Claim C5: with pagination enabled and an inner connection reporting
`hasNextPage = true` with a non-null cursor, the pre-deduplication sequence
contains the same record twice — each inner-page recursion re-issues the
query with the unchanged outer cursor (see the trace: both recursive calls
carry `endCursor = none`) and re-projects every repository of the outer
page — and only `getUniqueInstances` restores uniqueness. -/
theorem preDedup_duplicates :
    ((mkRepoNode 0 dupRepoA).collaborators.map
        fun c => (c.pageInfo.hasNextPage, c.pageInfo.endCursor)) =
      some (true, some (innerCursorString 0)) ∧
    (retrieveQueryResults (mkExec dupScript) true 5 initialVars).map (fun out => out.2) =
      some [initialVars,
            { initialVars with innerCursor := some (innerCursorString 0) },
            { initialVars with innerCursor := some (innerCursorString 0) }] ∧
    (retrieveQueryResults (mkExec dupScript) true 5 initialVars).map
        (fun out => out.1.count (mockSummary dupRepoA (sampleEdge "a1"))) = some 2 ∧
    (retrieveQueryResults (mkExec dupScript) true 5 initialVars).map
        (fun out => (getUniqueInstances out.1).count (mockSummary dupRepoA (sampleEdge "a1"))) =
      some 1 := by
  refine ⟨by decide, by decide, by decide, by decide⟩

/-- The largest inner page count of any repository of a script. -/
def innerBound (script : MockScript) : Nat :=
  script.orgPages.foldr
    (fun page acc => page.foldr (fun repo acc2 => max repo.pages.length acc2) acc) 0

theorem le_foldr_max_acc (page : List RepoScript) (acc : Nat) :
    acc ≤ page.foldr (fun repo acc2 => max repo.pages.length acc2) acc := by
  induction page with
  | nil => exact le_refl acc
  | cons r rest ih => exact le_trans ih (le_max_right _ _)

theorem mem_le_foldr_max {page : List RepoScript} {repo : RepoScript} (acc : Nat)
    (h : repo ∈ page) :
    repo.pages.length ≤ page.foldr (fun repo acc2 => max repo.pages.length acc2) acc := by
  induction page with
  | nil => exact absurd h (List.not_mem_nil repo)
  | cons r rest ih =>
    rcases List.mem_cons.mp h with rfl | hmem
    · exact le_max_left _ _
    · exact le_trans (ih hmem) (le_max_right _ _)

theorem mem_le_foldr_max_outer {pages : List (List RepoScript)} {page : List RepoScript}
    {repo : RepoScript} (hp : page ∈ pages) (hr : repo ∈ page) :
    repo.pages.length ≤ pages.foldr
      (fun page acc => page.foldr (fun repo acc2 => max repo.pages.length acc2) acc) 0 := by
  induction pages with
  | nil => exact absurd hp (List.not_mem_nil page)
  | cons p rest ih =>
    rcases List.mem_cons.mp hp with rfl | hmem
    · exact mem_le_foldr_max _ hr
    · exact le_trans (ih hmem) (le_foldr_max_acc _ _)

theorem innerBound_spec {script : MockScript} {page : List RepoScript} {repo : RepoScript}
    (hp : page ∈ script.orgPages) (hr : repo ∈ page) :
    repo.pages.length ≤ innerBound script :=
  mem_le_foldr_max_outer hp hr

/-- Claim C6: first conjunct — `processAdditionalPages` recurses only when
`hasNextPage` holds together with a non-null cursor: if `hasNextPage` is
false or `endCursor` is null, it contributes nothing and issues no call.
Second conjunct — against every scripted executor (the formalization of an
executor that supplies finitely many pages: after finitely many fetches
every connection reports `hasNextPage = false`), some finite fuel completes
the run: the recursion terminates. -/
theorem pagination_terminates :
    (∀ (paginate : Bool) (pageInfo : PageInfo) (client : QueryExecutor)
        (fuel : Nat) (context : UserPermissionQueryVariables),
      pageInfo.hasNextPage = false ∨ pageInfo.endCursor = none →
      processAdditionalPages paginate pageInfo client fuel context = some ([], [])) ∧
    (∀ (script : MockScript) (paginate : Bool) (vars : UserPermissionQueryVariables),
      ∃ fuel out, retrieveQueryResults (mkExec script) paginate fuel vars = some out) := by
  constructor
  · intro paginate pageInfo client fuel context h
    exact processAdditionalPagesAux_no_next h
  · intro script paginate vars
    cases paginate with
    | false =>
      have hsome : (retrieveQueryResults (mkExec script) false 1 vars).isSome := by
        rw [retrieveQueryResults_ok (mkExec_eq_ok script vars),
          processRepositoryNodes_of_false, Option.some_bind,
          processAdditionalPagesAux_of_false]
        simp
      obtain ⟨out, hout⟩ := Option.isSome_iff_exists.mp hsome
      exact ⟨1, out, hout⟩
    | true =>
      have hsome := mock_run_isSome script (innerBound script)
        (fun page hp repo hr => innerBound_spec hp hr)
        (mockPotential script (innerBound script) (cursorIndex vars.endCursor)
          (cursorIndex vars.innerCursor) + 1)
        vars (Nat.lt_succ_self _)
      obtain ⟨out, hout⟩ := Option.isSome_iff_exists.mp hsome
      exact ⟨_, out, hout⟩

theorem pagination_terminates_witness :
    processAdditionalPages true { hasNextPage := false, endCursor := some "cursor" }
      (mkExec dupScript) 3 initialVars = some ([], []) :=
  pagination_terminates.1 true { hasNextPage := false, endCursor := some "cursor" }
    (mkExec dupScript) 3 initialVars (Or.inl rfl)

/-- Modelled from the spec's mapping rule: the Organization variant, as a
tagged-union discriminant (the spec's "polymorphic variant is
Organization"), independent of the source's field-presence probing. -/
def isOrganizationVariant : SourceEntity → Bool
  | .organization _ => true
  | _ => false

/-- Modelled from the spec's mapping rule: the Repository variant. -/
def isRepositoryVariant : SourceEntity → Bool
  | .repository _ => true
  | _ => false

/-- Modelled from the spec's mapping rule: the Team variant. -/
def isTeamVariant : SourceEntity → Bool
  | .team _ => true
  | _ => false

/-- The name carried by a Team variant (the spec's pair component). -/
def teamVariantName : SourceEntity → String
  | .team name => name
  | _ => ""

/-- Modelled from the spec: permission of the first source whose variant is
Organization, null if none (or if the sources array is absent). -/
def specOrganizationPermission (sources : Option (List PermissionSource)) : Option String :=
  ((sources.getD []).find? fun src => isOrganizationVariant src.source).map
    fun src => src.permission

/-- Modelled from the spec: permission of the first source whose variant is
Repository. -/
def specRepositoryPermission (sources : Option (List PermissionSource)) : Option String :=
  ((sources.getD []).find? fun src => isRepositoryVariant src.source).map
    fun src => src.permission

/-- Modelled from the spec: the ordered list of (name, permission) pairs of
every source whose variant is Team, in source order; null when the sources
array is absent. -/
def specTeamPermissions (sources : Option (List PermissionSource)) :
    Option (List TeamPermission) :=
  sources.map fun list =>
    (list.filter fun src => isTeamVariant src.source).map fun src =>
      { name := teamVariantName src.source, permission := src.permission }

/-- The spec's concrete mapping example: permission sources
`[{Team,"WRITE","T1"}, {Organization,"READ"}]`. -/
def exampleEdge : CollaboratorEdge :=
  { permission := "WRITE"
    permissionSources := some
      [ { permission := "WRITE", source := .team "T1" },
        { permission := "READ", source := .organization "acme" } ]
    login := "octocat" }

def exampleRepoNode : RepoNode :=
  { nameWithOwner := some "acme/widgets", collaborators := none }

/-- Claim C4: the record built from a collaborator edge takes
`organizationPermission` from the first Organization-variant source,
`repositoryPermission` from the first Repository-variant source and
`teamPermission` from all Team-variant sources in order (absent sources
give null); and on the spec's concrete example the record is
`organizationPermission = "READ"`, `repositoryPermission = null`,
`teamPermissions = [{name := "T1", permission := "WRITE"}]`. -/
theorem mapping_rule :
    (∀ (repo : RepoNode) (user : CollaboratorEdge),
      (createUserSummary repo user).organizationPermission =
          specOrganizationPermission user.permissionSources ∧
      (createUserSummary repo user).repositoryPermission =
          specRepositoryPermission user.permissionSources ∧
      (createUserSummary repo user).teamPermission =
          specTeamPermissions user.permissionSources) ∧
    (createUserSummary exampleRepoNode exampleEdge).organizationPermission = some "READ" ∧
    (createUserSummary exampleRepoNode exampleEdge).repositoryPermission = none ∧
    (createUserSummary exampleRepoNode exampleEdge).teamPermission =
      some [{ name := "T1", permission := "WRITE" }] := by
  refine ⟨fun repo user => ⟨?_, ?_, ?_⟩, by decide, by decide, by decide⟩
  · have h : (fun src : PermissionSource => isOrganization src.source) =
        (fun src : PermissionSource => isOrganizationVariant src.source) :=
      funext fun src => by cases src.source <;> rfl
    simp [createUserSummary, specOrganizationPermission, h]
  · have h : (fun src : PermissionSource => isRepository src.source) =
        (fun src : PermissionSource => isRepositoryVariant src.source) :=
      funext fun src => by cases src.source <;> rfl
    simp [createUserSummary, specRepositoryPermission, h]
  · have h : (fun src : PermissionSource => isTeam src.source) =
        (fun src : PermissionSource => isTeamVariant src.source) :=
      funext fun src => by cases src.source <;> rfl
    have h2 : (fun src : PermissionSource =>
        ({ permission := src.permission,
           name := (entityName src.source).getD "" } : TeamPermission)) =
        (fun src : PermissionSource =>
          ({ name := teamVariantName src.source,
             permission := src.permission } : TeamPermission)) :=
      funext fun src => by cases src.source <;> rfl
    simp [createUserSummary, specTeamPermissions, h, h2]

theorem foldl_dedup_nodup (l : List UserPermissionSummary) :
    ∀ acc : List UserPermissionSummary, acc.Nodup →
      (l.foldl (fun unique item => if item ∈ unique then unique else unique ++ [item])
        acc).Nodup := by
  induction l with
  | nil => exact fun acc h => h
  | cons x rest ih =>
    intro acc hacc
    simp only [List.foldl_cons]
    by_cases hx : x ∈ acc
    · rw [if_pos hx]
      exact ih acc hacc
    · rw [if_neg hx]
      refine ih _ ?_
      simp [List.nodup_append, hacc, hx]

theorem getUniqueInstances_nodup (l : List UserPermissionSummary) :
    (getUniqueInstances l).Nodup :=
  foldl_dedup_nodup l [] List.nodup_nil

theorem foldl_dedup_of_disjoint (l : List UserPermissionSummary) :
    ∀ acc : List UserPermissionSummary, l.Nodup → (∀ x ∈ l, x ∉ acc) →
      l.foldl (fun unique item => if item ∈ unique then unique else unique ++ [item]) acc =
        acc ++ l := by
  induction l with
  | nil => simp
  | cons x rest ih =>
    intro acc hnodup hdisj
    simp only [List.foldl_cons]
    rw [if_neg (hdisj x (List.mem_cons_self _ _))]
    rw [ih (acc ++ [x]) (List.Nodup.of_cons hnodup)]
    · simp
    · intro y hy
      simp only [List.mem_append, List.mem_singleton]
      rintro (hyacc | rfl)
      · exact hdisj y (List.mem_cons_of_mem _ hy) hyacc
      · exact (List.nodup_cons.mp hnodup).1 hy

theorem getUniqueInstances_of_nodup {l : List UserPermissionSummary} (h : l.Nodup) :
    getUniqueInstances l = l := by
  rw [getUniqueInstances, foldl_dedup_of_disjoint l [] h (by simp)]
  simp

/-- Claim C8: deduplication is idempotent, and two records are duplicates
exactly when every field — including the whole team-permission list,
compared by content and order — is equal (structural equality of the
embedded record type is field-by-field equality). -/
theorem dedup_idempotent :
    (∀ S : List UserPermissionSummary,
      getUniqueInstances (getUniqueInstances S) = getUniqueInstances S) ∧
    (∀ x y : UserPermissionSummary, x = y ↔
      (x.repository = y.repository ∧ x.handle = y.handle ∧ x.permission = y.permission ∧
       x.organizationPermission = y.organizationPermission ∧
       x.teamPermission = y.teamPermission ∧
       x.repositoryPermission = y.repositoryPermission)) := by
  constructor
  · exact fun S => getUniqueInstances_of_nodup (getUniqueInstances_nodup S)
  · intro x y
    cases x
    cases y
    simp [UserPermissionSummary.mk.injEq, and_assoc]

/-- The sequence of first occurrences of a list: keeps each element's first
appearance, dropping every later duplicate. -/
def keepFirstSeen : List UserPermissionSummary → List UserPermissionSummary
  | [] => []
  | x :: rest => x :: keepFirstSeen (rest.filter fun y => y ≠ x)
termination_by l => l.length
decreasing_by
  exact Nat.lt_succ_of_le (List.length_filter_le _ _)

theorem keepFirstSeen_nil : keepFirstSeen [] = [] := by
  rw [keepFirstSeen.eq_def]

theorem keepFirstSeen_cons (x : UserPermissionSummary) (rest : List UserPermissionSummary) :
    keepFirstSeen (x :: rest) = x :: keepFirstSeen (rest.filter fun y => y ≠ x) := by
  rw [keepFirstSeen.eq_def]

theorem foldl_dedup_eq_keepFirstSeen (l : List UserPermissionSummary) :
    ∀ acc : List UserPermissionSummary,
      l.foldl (fun unique item => if item ∈ unique then unique else unique ++ [item]) acc =
        acc ++ keepFirstSeen (l.filter fun y => y ∉ acc) := by
  induction l with
  | nil => simp [keepFirstSeen_nil]
  | cons x rest ih =>
    intro acc
    simp only [List.foldl_cons, List.filter_cons]
    by_cases hx : x ∈ acc
    · rw [if_pos hx]
      have : (decide (x ∉ acc)) = false := by simp [hx]
      rw [this]
      exact ih acc
    · rw [if_neg hx]
      have hdec : (decide (x ∉ acc)) = true := by simp [hx]
      rw [hdec, if_pos rfl, ih (acc ++ [x]), keepFirstSeen_cons]
      have hfe : (rest.filter fun y => y ∉ acc ++ [x]) =
          ((rest.filter fun y => y ∉ acc).filter fun y => y ≠ x) := by
        rw [List.filter_filter]
        apply List.filter_congr
        intro a _
        by_cases h1 : a ∈ acc <;> by_cases h2 : a = x <;> simp [h1, h2]
      rw [hfe]
      simp

theorem getUniqueInstances_eq_keepFirstSeen (S : List UserPermissionSummary) :
    getUniqueInstances S = keepFirstSeen S := by
  rw [getUniqueInstances, foldl_dedup_eq_keepFirstSeen S []]
  have : (S.filter fun y => y ∉ ([] : List UserPermissionSummary)) = S := by
    apply List.filter_eq_self.mpr
    intro a _
    simp
  rw [this]
  simp

theorem keepFirstSeen_sublist_aux :
    ∀ (n : Nat) (l : List UserPermissionSummary), l.length ≤ n →
      List.Sublist (keepFirstSeen l) l := by
  intro n
  induction n with
  | zero =>
    intro l hl
    cases l with
    | nil => simp [keepFirstSeen_nil]
    | cons x rest => simp at hl
  | succ n ih =>
    intro l hl
    cases l with
    | nil => simp [keepFirstSeen_nil]
    | cons x rest =>
      rw [keepFirstSeen_cons]
      refine List.Sublist.cons₂ x ?_
      refine List.Sublist.trans (ih _ ?_) (List.filter_sublist rest)
      exact le_trans (List.length_filter_le _ _) (Nat.le_of_succ_le_succ hl)

theorem keepFirstSeen_sublist (l : List UserPermissionSummary) :
    List.Sublist (keepFirstSeen l) l :=
  keepFirstSeen_sublist_aux l.length l (le_refl _)

/-- Claim C10, counterexample: at the very boundary-overlap-duplicate input
the claim points to — the pre-deduplication sequence of the duplication
scenario, holding the `a1` and `b1` records twice — deduplication returns
exactly the first occurrences in input order, not a reordering: a `Set`
iterates in insertion order.  (The amended theorem extends this to every
input, negating the claimed existence of an order-changing one.) -/
theorem dedupOrder_negation :
    (([mockSummary dupRepoA (sampleEdge "a0"), mockSummary dupRepoA (sampleEdge "a1"),
       mockSummary dupRepoB (sampleEdge "b1"), mockSummary dupRepoB (sampleEdge "b0"),
       mockSummary dupRepoA (sampleEdge "a1"), mockSummary dupRepoB (sampleEdge "b1")]
        : List UserPermissionSummary).count (mockSummary dupRepoA (sampleEdge "a1")) = 2) ∧
    getUniqueInstances
        [mockSummary dupRepoA (sampleEdge "a0"), mockSummary dupRepoA (sampleEdge "a1"),
         mockSummary dupRepoB (sampleEdge "b1"), mockSummary dupRepoB (sampleEdge "b0"),
         mockSummary dupRepoA (sampleEdge "a1"), mockSummary dupRepoB (sampleEdge "b1")] =
      [mockSummary dupRepoA (sampleEdge "a0"), mockSummary dupRepoA (sampleEdge "a1"),
       mockSummary dupRepoB (sampleEdge "b1"), mockSummary dupRepoB (sampleEdge "b0")] := by
  exact ⟨by decide, by decide⟩

/-- Claim C10 (amended): deduplication preserves first-seen order: its
output is the duplicate-free subsequence of first occurrences of the
input, in input order. -/
theorem dedup_first_seen_order (S : List UserPermissionSummary) :
    getUniqueInstances S = keepFirstSeen S ∧
    (getUniqueInstances S).Nodup ∧
    List.Sublist (getUniqueInstances S) S := by
  refine ⟨getUniqueInstances_eq_keepFirstSeen S, getUniqueInstances_nodup S, ?_⟩
  rw [getUniqueInstances_eq_keepFirstSeen S]
  exact keepFirstSeen_sublist S

/-- The primary sort key of a column: the repository string for
`repository`, the handle for `user`. -/
def primaryKey : SortColumn → UserPermissionSummary → String
  | .user => fun s => s.handle
  | .repository => fun s => s.repository

/-- The secondary (tie-break) sort key: the other of the two strings. -/
def secondaryKey : SortColumn → UserPermissionSummary → String
  | .user => fun s => s.repository
  | .repository => fun s => s.handle

theorem localeCompare_le_zero {a b : String} : localeCompare a b ≤ 0 ↔ a ≤ b := by
  rw [localeCompare]
  rcases lt_trichotomy a b with h | h | h
  · rw [if_pos h]
    simp [le_of_lt h]
  · subst h
    simp [lt_irrefl]
  · rw [if_neg (asymm h), if_pos h]
    simp [not_le.mpr h]

theorem localeCompare_eq_zero {a b : String} : localeCompare a b = 0 ↔ a = b := by
  rw [localeCompare]
  rcases lt_trichotomy a b with h | h | h
  · rw [if_pos h]
    simp [ne_of_lt h]
  · subst h
    simp [lt_irrefl]
  · rw [if_neg (asymm h), if_pos h]
    simp [(ne_of_lt h).symm]

theorem jsOr_compare_le_zero (p1 p2 s1 s2 : String) :
    jsOr (localeCompare p1 p2) (localeCompare s1 s2) ≤ 0 ↔
      (p1 < p2 ∨ (p1 = p2 ∧ s1 ≤ s2)) := by
  rw [jsOr]
  split
  · next h =>
    have hp := localeCompare_eq_zero.mp h
    subst hp
    simp [localeCompare_le_zero, lt_irrefl]
  · next h =>
    have hne : p1 ≠ p2 := fun he => h (localeCompare_eq_zero.mpr he)
    rw [localeCompare_le_zero]
    constructor
    · intro hle
      exact Or.inl (lt_of_le_of_ne hle hne)
    · rintro (hlt | ⟨he, -⟩)
      · exact le_of_lt hlt
      · exact absurd he hne

theorem sortComparator_le_zero (column : SortColumn) (l r : UserPermissionSummary) :
    sortComparator column l r ≤ 0 ↔
      (primaryKey column l < primaryKey column r ∨
        (primaryKey column l = primaryKey column r ∧
          secondaryKey column l ≤ secondaryKey column r)) := by
  cases column <;>
    simp [sortComparator, userCompare, repositoryCompare, primaryKey, secondaryKey,
      jsOr_compare_le_zero]

theorem sortComparator_total (column : SortColumn) (a b : UserPermissionSummary) :
    sortComparator column a b ≤ 0 ∨ sortComparator column b a ≤ 0 := by
  rw [sortComparator_le_zero, sortComparator_le_zero]
  rcases lt_trichotomy (primaryKey column a) (primaryKey column b) with h | h | h
  · exact Or.inl (Or.inl h)
  · rcases le_total (secondaryKey column a) (secondaryKey column b) with hs | hs
    · exact Or.inl (Or.inr ⟨h, hs⟩)
    · exact Or.inr (Or.inr ⟨h.symm, hs⟩)
  · exact Or.inr (Or.inl h)

theorem sortComparator_trans (column : SortColumn) (a b c : UserPermissionSummary)
    (h1 : sortComparator column a b ≤ 0) (h2 : sortComparator column b c ≤ 0) :
    sortComparator column a c ≤ 0 := by
  rw [sortComparator_le_zero] at h1 h2 ⊢
  rcases h1 with h1 | ⟨h1e, h1s⟩ <;> rcases h2 with h2 | ⟨h2e, h2s⟩
  · exact Or.inl (lt_trans h1 h2)
  · exact Or.inl (h2e ▸ h1)
  · exact Or.inl (h1e ▸ h2)
  · exact Or.inr ⟨h1e.trans h2e, le_trans h1s h2s⟩

/-- Claim C9: for either sort column the sorted output is a permutation of
the input; every adjacent pair has a non-decreasing primary key and, among
equal primary keys, a non-decreasing secondary key; the comparator is
total; and the sort is stable — any subsequence of records whose two keys
agree pairwise keeps its input order in the output. -/
theorem sort_sorted_stable (column : SortColumn) (l : List UserPermissionSummary) :
    List.Perm (sort l column) l ∧
    List.Chain' (fun a b => primaryKey column a ≤ primaryKey column b ∧
      (primaryKey column a = primaryKey column b →
        secondaryKey column a ≤ secondaryKey column b)) (sort l column) ∧
    (∀ a b, sortComparator column a b ≤ 0 ∨ sortComparator column b a ≤ 0) ∧
    (∀ sub, List.Sublist sub l →
      sub.Pairwise (fun a b => primaryKey column a = primaryKey column b ∧
        secondaryKey column a = secondaryKey column b) →
      List.Sublist sub (sort l column)) := by
  have htrans : ∀ (a b c : UserPermissionSummary),
      decide (sortComparator column a b ≤ 0) = true →
      decide (sortComparator column b c ≤ 0) = true →
      decide (sortComparator column a c ≤ 0) = true := by
    intro a b c h1 h2
    exact decide_eq_true
      (sortComparator_trans column a b c (of_decide_eq_true h1) (of_decide_eq_true h2))
  have htotal : ∀ (a b : UserPermissionSummary),
      (decide (sortComparator column a b ≤ 0) ||
        decide (sortComparator column b a ≤ 0)) = true := by
    intro a b
    rcases sortComparator_total column a b with h | h <;> simp [h]
  refine ⟨List.mergeSort_perm l _, ?_, sortComparator_total column, ?_⟩
  · have hs := List.sorted_mergeSort htrans htotal l
    refine List.Chain'.imp ?_ hs.chain'
    intro a b hab
    have h := of_decide_eq_true hab
    rw [sortComparator_le_zero] at h
    rcases h with h | ⟨he, hs2⟩
    · exact ⟨le_of_lt h, fun heq => absurd heq (ne_of_lt h)⟩
    · exact ⟨le_of_eq he, fun _ => hs2⟩
  · intro sub hsub hpw
    refine List.sublist_mergeSort htrans htotal ?_ hsub
    refine hpw.imp ?_
    intro a b hab
    apply decide_eq_true
    rw [sortComparator_le_zero]
    exact Or.inr ⟨hab.1, le_of_eq hab.2⟩

def sampleRecordA : UserPermissionSummary :=
  { repository := "acme/alpha", handle := "alice", permission := "ADMIN"
    organizationPermission := none, teamPermission := none, repositoryPermission := none }

def sampleRecordB : UserPermissionSummary :=
  { repository := "acme/beta", handle := "bob", permission := "READ"
    organizationPermission := none, teamPermission := none, repositoryPermission := none }

theorem sort_sorted_stable_witness :
    List.Sublist [sampleRecordA] (sort [sampleRecordA, sampleRecordB] SortColumn.repository) :=
  (sort_sorted_stable SortColumn.repository [sampleRecordA, sampleRecordB]).2.2.2
    [sampleRecordA] (List.Sublist.cons₂ _ (List.nil_sublist _)) (by simp)
